import Mathlib

/-!
Verification of the iter-num-tools numeric-sequence library.

The Rust source is shallowly embedded as follows.

* The generic float type `F` of `src/arange.rs` is modelled by `ℚ`
  (exact arithmetic): the only operations `Arange` performs on `F` are
  field operations and comparison, and its `step` counter takes the
  values `0, 1, 2, ...`, which floats represent exactly (up to `2^53`,
  far past anything iterated here).
* `usize` is modelled by `ℕ`; where the Rust code can underflow or the
  `num_traits` conversion can fail, the model returns `Option`,
  `none` standing for the panic / conversion failure.
* Iterators are state machines: `next` takes a state and returns
  `Option (value × state)`.
* The IEEE pipeline in `Arange::size_hint` — `(length / step_size)
  .ceil().to_usize()` — is modelled by `floatCeilDivToUsize`: when
  `step_size = 0` the float quotient is `±∞` or `NaN` (whose `ceil`
  stays `±∞`/`NaN` and whose `to_usize` is `None`); otherwise the
  quotient is exact in `ℚ`, `ceil` is `Int.ceil`, and `to_usize`
  fails exactly on negative results (`ceil` of a value in `(-1, 0]`
  is `-0.0`, which converts to `0`, matching `Int.ceil`).
  Results are assumed below `usize::MAX` (the claims stay far below it).
-/

/-- `usize::MAX` for a 64-bit target, the sentinel lower bound that
`Arange::size_hint` reports for an unbounded iterator. -/
def USIZE_MAX : ℕ := 2 ^ 64 - 1

/-- State of `Arange<F>` (src/arange.rs, lines 6-11): `start`, `end`
(here `stop`: `end` is a Lean keyword), `step_size`, and the running
step counter `step` (an `F` in the source, incremented by `1.0`). -/
structure Arange where
  start : ℚ
  stop : ℚ
  step_size : ℚ
  step : ℚ
  deriving DecidableEq

/-- `Arange::new` (src/arange.rs, lines 42-50): counter starts at `F::zero()`. -/
def Arange.new (start stop step : ℚ) : Arange :=
  { start := start, stop := stop, step_size := step, step := 0 }

/-- `Arange::next` (src/arange.rs, lines 58-66): candidate
`x = start + step * step_size`; yield it and bump the counter while
`x < end`, otherwise `None`. -/
def Arange.next (a : Arange) : Option (ℚ × Arange) :=
  let x := a.start + a.step * a.step_size
  if x < a.stop then some (x, { a with step := a.step + 1 }) else none

/-- Fuel-bounded collection of the values an `Arange` yields: drive
`next` at most `fuel` times, stopping early at `None`.  (Fuel is needed
because the Rust iterator is infinite when `step_size = 0`.) -/
def Arange.output (a : Arange) : ℕ → List ℚ
  | 0 => []
  | n + 1 =>
    match a.next with
    | none => []
    | some (v, a') => v :: a'.output n

/-- The `(length / step_size).ceil().to_usize()` pipeline of
`Arange::size_hint`, with IEEE division by zero and `ToPrimitive`
failure made explicit (see the file header). -/
def floatCeilDivToUsize (length step_size : ℚ) : Option ℕ :=
  if step_size = 0 then
    none
  else
    let c : ℤ := ⌈length / step_size⌉
    if c < 0 then none else some c.toNat

/-- `Arange::size_hint` (src/arange.rs, lines 68-74): remaining length
estimate `ceil((end - (start + step*step_size)) / step_size)`, with
`(usize::MAX, None)` when the conversion fails. -/
def Arange.sizeHint (a : Arange) : ℕ × Option ℕ :=
  let length := a.stop - (a.start + a.step * a.step_size)
  match floatCeilDivToUsize length a.step_size with
  | some steps_left => (steps_left, some steps_left)
  | none => (USIZE_MAX, none)

/-- `Arange::count` (src/arange.rs, lines 76-84): the upper bound of
`size_hint`, panicking (`none`) when it is `None`. -/
def Arange.count (a : Arange) : Option ℕ :=
  match a.sizeHint with
  | (_, some x) => some x
  | (_, none) => none

/-- The value the counter-`c` state of an `Arange` is about to test. -/
def arangeVal (start s : ℚ) (k : ℕ) : ℚ := start + (k : ℚ) * s

/-- Cartesian product of two sequences, modelling the external
`itertools::Itertools::cartesian_product` used by the grid impls of
src/arange.rs: each element of the first iterator, in order, is paired
with every element of a fresh clone of the second iterator, in order
(row-major: first axis slowest, second axis fastest). -/
def cartesianProduct {α β : Type} (l1 : List α) (l2 : List β) : List (α × β) :=
  l1.flatMap (fun a => l2.map (fun b => (a, b)))

/-- `IntoArangeGrid of (F1, F2) for Range of (F1, F2)` (src/arange.rs,
lines 135-153), with fuel bounding the per-axis outputs: the first axis
is `Arange::new(w0..w1, w)`, the second `Arange::new(h0..h1, h)`,
combined by `cartesian_product`. -/
def arangeGrid2 (w0 h0 w1 h1 w h : ℚ) (fuel : ℕ) : List (ℚ × ℚ) :=
  cartesianProduct ((Arange.new w0 w1 w).output fuel) ((Arange.new h0 h1 h).output fuel)

/-- `IntoArangeGrid of F for Range of (F, F)` (src/arange.rs, lines
179-188): the uniform-step 2-D grid delegates to the per-axis variant
with the same step on both axes. -/
def arangeGrid2Uniform (w0 h0 w1 h1 steps : ℚ) (fuel : ℕ) : List (ℚ × ℚ) :=
  arangeGrid2 w0 h0 w1 h1 steps steps fuel

/-- The fixed-step iterator on `start..stop` with step `s` exhausts
within `n` calls: some `k < n` fails the `< stop` test. -/
def arangeExhausts (start stop s : ℚ) (n : ℕ) : Prop :=
  ∃ k < n, ¬ arangeVal start s k < stop

instance (start stop s : ℚ) (n : ℕ) : Decidable (arangeExhausts start stop s n) := by
  unfold arangeExhausts; infer_instance

/-- `Lerp<T>` (src/lerp.rs, lines 5-11): a two-point linear
interpolation `(x0, y0) - (x1, y1)`. -/
structure Lerp where
  x0 : ℚ
  x1 : ℚ
  y0 : ℚ
  y1 : ℚ
  deriving DecidableEq

/-- `Lerp::new` (src/lerp.rs, lines 13-19): fields from the two ranges
`x0..=x1` and `y0..=y1`. -/
def Lerp.new (x0 x1 y0 y1 : ℚ) : Lerp :=
  { x0 := x0, x1 := x1, y0 := y0, y1 := y1 }

/-- `Lerp::lerp` (src/lerp.rs, lines 26-30):
`((y0 * (x1 - x)) + (y1 * (x - x0))) / (x1 - x0)`. -/
def Lerp.lerp (L : Lerp) (x : ℚ) : ℚ :=
  ((L.y0 * (L.x1 - x)) + (L.y1 * (x - L.x0))) / (L.x1 - L.x0)

/-- `LogInterpolation<T>` (src/logspace.rs, lines 82-86).  The numeric
type is kept generic where only the multiplicative structure matters
(the cursor mechanics of `LogSpace` never touch it); the `ℝ`-specific
constructors follow. -/
structure LogInterpolation (α : Type) where
  start : α
  step : α
  deriving DecidableEq

/-- `LogInterpolation::lerp` (src/logspace.rs, lines 88-94):
`start * step.powi(x as i32)`, i.e. `start * step ^ x` (the `usize` to
`i32` cast is faithful for every index below `2^31`, far beyond any
length considered here). -/
def LogInterpolation.lerp {α : Type} [Monoid α] (l : LogInterpolation α) (x : ℕ) : α :=
  l.start * l.step ^ x

/-- `From (Range<T>, usize) for LogInterpolation<T>` (src/logspace.rs,
lines 96-102): ratio `(end / start).powf((steps as T).recip())`, with
`powf` modelled by real exponentiation `Real.rpow`. -/
noncomputable def LogInterpolation.fromRange (start stop : ℝ) (steps : ℕ) :
    LogInterpolation ℝ :=
  { start := start, step := (stop / start) ^ ((steps : ℝ))⁻¹ }

/-- `From (RangeInclusive<T>, usize) for LogInterpolation<T>`
(src/logspace.rs, lines 104-110): as the half-open case but with
`steps - 1` — a `usize` subtraction that underflows when `steps = 0`;
the model returns `none` for that fatal arithmetic error. -/
noncomputable def LogInterpolation.fromRangeInclusive (start stop : ℝ) (steps : ℕ) :
    Option (LogInterpolation ℝ) :=
  if steps = 0 then none
  else some { start := start, step := (stop / start) ^ (((steps - 1 : ℕ) : ℝ))⁻¹ }

/-- `LogSpace<T>` (src/logspace.rs, lines 113-118): forward cursor `x`,
backward boundary `steps`, interpolation parameters `lerp`. -/
structure LogSpace (α : Type) where
  x : ℕ
  steps : ℕ
  lerp : LogInterpolation α

/-- `LogSpace::next` (src/logspace.rs, lines 123-130): while
`x < steps`, yield `lerp(x)` and increment the cursor. -/
def LogSpace.next {α : Type} [Monoid α] (s : LogSpace α) : Option (α × LogSpace α) :=
  if s.x < s.steps then some (s.lerp.lerp s.x, { s with x := s.x + 1 }) else none

/-- `LogSpace::next_back` (src/logspace.rs, lines 140-147): while
`x < steps`, decrement `steps` and yield `lerp` at its new value. -/
def LogSpace.nextBack {α : Type} [Monoid α] (s : LogSpace α) : Option (α × LogSpace α) :=
  if s.x < s.steps then
    some (s.lerp.lerp (s.steps - 1), { s with steps := s.steps - 1 })
  else none

/-- `LogSpace::len` (src/logspace.rs, lines 150-155): `steps - x`, a
`usize` subtraction; under the cursor invariant `x ≤ steps` it never
underflows, and `ℕ` truncated subtraction agrees with it. -/
def LogSpace.len {α : Type} (s : LogSpace α) : ℕ := s.steps - s.x

/-- `IntoLogSpace for Range<T>` (src/logspace.rs, lines 53-64):
cursor `0`, the given `steps`, half-open interpolation parameters. -/
noncomputable def intoLogSpaceRange (start stop : ℝ) (steps : ℕ) : LogSpace ℝ :=
  { x := 0, steps := steps, lerp := LogInterpolation.fromRange start stop steps }

/-- `IntoLogSpace for RangeInclusive<T>` (src/logspace.rs, lines
40-51): as above with the closed-range parameters, `none` when their
construction underflows. -/
noncomputable def intoLogSpaceRangeInclusive (start stop : ℝ) (steps : ℕ) :
    Option (LogSpace ℝ) :=
  (LogInterpolation.fromRangeInclusive start stop steps).map
    (fun l => { x := 0, steps := steps, lerp := l })

/-- The values a `LogSpace` still yields going forward: repeated
`next` until exhaustion (see `LogSpace.forwardList_next`). -/
def LogSpace.forwardList {α : Type} [Monoid α] (s : LogSpace α) : List α :=
  if h : s.x < s.steps then
    s.lerp.lerp s.x :: LogSpace.forwardList { s with x := s.x + 1 }
  else []
termination_by s.steps - s.x
decreasing_by
  simp
  omega

/-- The values a `LogSpace` yields driven entirely backward: repeated
`next_back` until exhaustion. -/
def LogSpace.backwardList {α : Type} [Monoid α] (s : LogSpace α) : List α :=
  if h : s.x < s.steps then
    s.lerp.lerp (s.steps - 1) :: LogSpace.backwardList { s with steps := s.steps - 1 }
  else []
termination_by s.steps - s.x
decreasing_by
  simp
  omega

/-- Drive a `LogSpace` by an explicit direction sequence — `true` is a
forward `next`, `false` a backward `next_back` — collecting the values
produced (an exhausted call produces nothing and iteration goes on,
matching the fused iterator). -/
def LogSpace.drive {α : Type} [Monoid α] (s : LogSpace α) : List Bool → List α × LogSpace α
  | [] => ([], s)
  | d :: ds =>
    match (if d then s.next else s.nextBack) with
    | none => s.drive ds
    | some (v, s1) => ((s1.drive ds).1.cons v, (s1.drive ds).2)

theorem Arange.output_counter (start stop s : ℚ) :
    ∀ (n c : ℕ),
      Arange.output { start := start, stop := stop, step_size := s, step := (c : ℚ) } n =
        ((List.range' c n).takeWhile (fun k => decide (arangeVal start s k < stop))).map
          (arangeVal start s)
  | 0, _ => by simp [Arange.output]
  | n + 1, c => by
    rw [List.range'_succ, List.takeWhile_cons]
    by_cases h : arangeVal start s c < stop
    · have hc : ((c : ℚ) + 1) = ((c + 1 : ℕ) : ℚ) := by push_cast; ring
      simp only [Arange.output, Arange.next, arangeVal] at *
      rw [if_pos h]
      simp [h]
      rw [hc, Arange.output_counter start stop s n (c + 1)]
      simp [arangeVal]
    · simp only [Arange.output, Arange.next, arangeVal] at *
      rw [if_neg h]
      simp [h]

theorem arange_output_eq (start stop s : ℚ) (n : ℕ) :
    (Arange.new start stop s).output n =
      ((List.range n).takeWhile (fun k => decide (arangeVal start s k < stop))).map
        (arangeVal start s) := by
  have h0 : (0 : ℚ) = ((0 : ℕ) : ℚ) := by norm_num
  rw [List.range_eq_range', Arange.new, h0, Arange.output_counter]

/-- C1. The fixed-step iterator started on `start..stop` with step
`step_size = s` yields, within any fuel bound `n`, exactly the values
`start + k*s` for `k = 0, 1, 2, ...` in increasing `k` order for as
long as that value is strictly less than `stop` (a `takeWhile` over
`k`), and from any counter value `c` the very first `k = c` whose value
fails `< stop` makes `next` return `None`. -/
theorem arange_yields_takeWhile (start stop s : ℚ) (n c : ℕ) :
    Arange.output (Arange.new start stop s) n =
        ((List.range n).takeWhile (fun k => decide (arangeVal start s k < stop))).map
          (arangeVal start s) ∧
      Arange.next { start := start, stop := stop, step_size := s, step := (c : ℚ) } =
        (if arangeVal start s c < stop then
          some (arangeVal start s c,
            { start := start, stop := stop, step_size := s, step := (c : ℚ) + 1 })
        else none) := by
  constructor
  · exact arange_output_eq start stop s n
  · simp [Arange.next, arangeVal]

theorem cartesianProduct_eq_product {α β : Type} (l1 : List α) (l2 : List β) :
    cartesianProduct l1 l2 = l1 ×ˢ l2 := rfl

theorem arange_output_nodup (start stop s : ℚ) (n : ℕ)
    (h : arangeExhausts start stop s n) :
    ((Arange.new start stop s).output n).Nodup := by
  rw [arange_output_eq]
  by_cases hs : s = 0
  · obtain ⟨k, _, hk⟩ := h
    have hstart : ¬ start < stop := by simpa [arangeVal, hs] using hk
    cases n with
    | zero => simp
    | succ m =>
      rw [List.range_eq_range', List.range'_succ, List.takeWhile_cons_of_neg]
      · simp
      · simpa [arangeVal, hs] using hstart
  · apply List.Nodup.map
    · intro a b hab
      have h1 : (a : ℚ) * s = (b : ℚ) * s := by
        have := hab
        simp only [arangeVal, add_right_inj] at this
        exact this
      have h2 := mul_right_cancel₀ hs h1
      exact_mod_cast h2
    · exact ((List.takeWhile_sublist _).nodup (List.nodup_range n))

theorem cartesianProduct_getElem {α β : Type} (l1 : List α) (l2 : List β) :
    ∀ (i j : ℕ) (hi : i < l1.length) (hj : j < l2.length),
      (cartesianProduct l1 l2)[i * l2.length + j]? =
        some (l1.get ⟨i, hi⟩, l2.get ⟨j, hj⟩) := by
  induction l1 with
  | nil => intro i j hi _; simp at hi
  | cons a t ih =>
    intro i j hi hj
    have hcons : cartesianProduct (a :: t) l2 =
        l2.map (fun b => (a, b)) ++ cartesianProduct t l2 := by
      simp [cartesianProduct]
    cases i with
    | zero =>
      rw [hcons]
      simp only [Nat.zero_mul, Nat.zero_add]
      rw [List.getElem?_append_left (by simpa using hj)]
      simp [List.getElem?_eq_getElem hj]
    | succ i =>
      rw [hcons]
      have hlen : (l2.map (fun b => (a, b))).length ≤ (i + 1) * l2.length + j := by
        simp [Nat.succ_mul]
        omega
      rw [List.getElem?_append_right hlen]
      have hidx : (i + 1) * l2.length + j - (l2.map (fun b => (a, b))).length =
          i * l2.length + j := by
        simp [Nat.succ_mul]
        omega
      rw [hidx]
      exact ih i j (by simpa using hi) hj

/-- C4. For per-axis fixed-step iterators (each of which exhausts
within the given fuel, so the truncation-free lists are their full
outputs), the 2-D `arange_grid`: has total count `L1 * L2`; contains a
pair exactly when each component is an output of its axis; has no
duplicates (every combination appears exactly once); is in row-major
order — the pair at flat index `i * L2 + j` is the `i`-th first-axis
value with the `j`-th second-axis value, so the first axis varies
slowest and the second fastest; and the uniform-step variant equals the
per-axis variant with that step on both axes. -/
theorem arangeGrid2_spec (w0 h0 w1 h1 w h : ℚ) (fuel : ℕ)
    (hw : arangeExhausts w0 w1 w fuel) (hh : arangeExhausts h0 h1 h fuel) :
    (arangeGrid2 w0 h0 w1 h1 w h fuel).length =
        ((Arange.new w0 w1 w).output fuel).length *
          ((Arange.new h0 h1 h).output fuel).length ∧
      (∀ v1 v2 : ℚ, (v1, v2) ∈ arangeGrid2 w0 h0 w1 h1 w h fuel ↔
        v1 ∈ (Arange.new w0 w1 w).output fuel ∧
          v2 ∈ (Arange.new h0 h1 h).output fuel) ∧
      (arangeGrid2 w0 h0 w1 h1 w h fuel).Nodup ∧
      (∀ (i j : ℕ) (hi : i < ((Arange.new w0 w1 w).output fuel).length)
          (hj : j < ((Arange.new h0 h1 h).output fuel).length),
        (arangeGrid2 w0 h0 w1 h1 w h
            fuel)[i * ((Arange.new h0 h1 h).output fuel).length + j]? =
          some (((Arange.new w0 w1 w).output fuel).get ⟨i, hi⟩,
            ((Arange.new h0 h1 h).output fuel).get ⟨j, hj⟩)) ∧
      ∀ steps : ℚ, arangeGrid2Uniform w0 h0 w1 h1 steps fuel =
        arangeGrid2 w0 h0 w1 h1 steps steps fuel := by
  refine ⟨?_, ?_, ?_, ?_, fun steps => rfl⟩
  · rw [arangeGrid2, cartesianProduct_eq_product]
    exact List.length_product _ _
  · intro v1 v2
    rw [arangeGrid2, cartesianProduct_eq_product]
    exact List.mem_product
  · rw [arangeGrid2, cartesianProduct_eq_product]
    exact (arange_output_nodup w0 w1 w fuel hw).product (arange_output_nodup h0 h1 h fuel hh)
  · intro i j hi hj
    exact cartesianProduct_getElem _ _ i j hi hj

/-- Witness for C4: the grid of the doc example scaled to the unit
square, `(0,0)..(1,1)` with step `1/2` on both axes and fuel `3`. -/
theorem arangeGrid2_spec_witness :
    (arangeExhausts 0 1 (1/2) 3 ∧ arangeExhausts 0 1 (1/2) 3) ∧
      ((arangeGrid2 0 0 1 1 (1/2) (1/2) 3).length =
          ((Arange.new 0 1 (1/2)).output 3).length *
            ((Arange.new 0 1 (1/2)).output 3).length ∧
        (∀ v1 v2 : ℚ, (v1, v2) ∈ arangeGrid2 0 0 1 1 (1/2) (1/2) 3 ↔
          v1 ∈ (Arange.new 0 1 (1/2)).output 3 ∧
            v2 ∈ (Arange.new 0 1 (1/2)).output 3) ∧
        (arangeGrid2 0 0 1 1 (1/2) (1/2) 3).Nodup ∧
        (∀ (i j : ℕ) (hi : i < ((Arange.new 0 1 (1/2)).output 3).length)
            (hj : j < ((Arange.new 0 1 (1/2)).output 3).length),
          (arangeGrid2 0 0 1 1 (1/2) (1/2)
              3)[i * ((Arange.new 0 1 (1/2)).output 3).length + j]? =
            some (((Arange.new 0 1 (1/2)).output 3).get ⟨i, hi⟩,
              ((Arange.new 0 1 (1/2)).output 3).get ⟨j, hj⟩)) ∧
        ∀ steps : ℚ, arangeGrid2Uniform 0 0 1 1 steps 3 =
          arangeGrid2 0 0 1 1 steps steps 3) :=
  ⟨⟨⟨2, by norm_num, by norm_num [arangeVal]⟩, ⟨2, by norm_num, by norm_num [arangeVal]⟩⟩,
    arangeGrid2_spec 0 0 1 1 (1/2) (1/2) 3 ⟨2, by norm_num, by norm_num [arangeVal]⟩
      ⟨2, by norm_num, by norm_num [arangeVal]⟩⟩

/-- C5. The linear interpolation primitive is exactly the affine
map `i ↦ start + step * i`: for any `Lerp` whose sample points are
distinct (`x1 ≠ x0`, so that the division is by a nonzero value),
evaluation at the unsigned index `i` gives `start + step * i` with
`start` the value at `0` and `step` the slope `(y1 - y0) / (x1 - x0)`;
conversely the `Lerp` encoding a requested `start` and `step` (sample
points `0` and `1`, values `start` and `start + step`) evaluates at
every `i` to `start + step * i`, with no further side condition. -/
theorem Lerp.lerp_affine (L : Lerp) (h : L.x1 ≠ L.x0) (start step : ℚ) (i : ℕ) :
    L.lerp i = L.lerp 0 + (L.y1 - L.y0) / (L.x1 - L.x0) * i ∧
      (Lerp.new 0 1 start (start + step)).lerp i = start + step * i := by
  constructor
  · have hx : L.x1 - L.x0 ≠ 0 := sub_ne_zero.mpr h
    rw [Lerp.lerp, Lerp.lerp]
    field_simp
    ring
  · rw [Lerp.new, Lerp.lerp]
    norm_num
    ring

/-- Witness for C5 at the `Lerp` with sample points `0, 1` and values
`0, 1`, requested line `start = 3`, `step = 5`, index `2`. -/
theorem Lerp.lerp_affine_witness :
    ({ x0 := 0, x1 := 1, y0 := 0, y1 := 1 } : Lerp).x1 ≠
        ({ x0 := 0, x1 := 1, y0 := 0, y1 := 1 } : Lerp).x0 ∧
      (({ x0 := 0, x1 := 1, y0 := 0, y1 := 1 } : Lerp).lerp ((2 : ℕ) : ℚ) =
          ({ x0 := 0, x1 := 1, y0 := 0, y1 := 1 } : Lerp).lerp 0 +
            (({ x0 := 0, x1 := 1, y0 := 0, y1 := 1 } : Lerp).y1 -
                ({ x0 := 0, x1 := 1, y0 := 0, y1 := 1 } : Lerp).y0) /
              (({ x0 := 0, x1 := 1, y0 := 0, y1 := 1 } : Lerp).x1 -
                ({ x0 := 0, x1 := 1, y0 := 0, y1 := 1 } : Lerp).x0) * ((2 : ℕ) : ℚ) ∧
        (Lerp.new 0 1 3 (3 + 5)).lerp ((2 : ℕ) : ℚ) = 3 + 5 * ((2 : ℕ) : ℚ)) :=
  ⟨by norm_num, Lerp.lerp_affine { x0 := 0, x1 := 1, y0 := 0, y1 := 1 } (by norm_num) 3 5 2⟩

theorem arange_output_length_of_zero_step :
    ∀ (n : ℕ) (a : Arange), a.step_size = 0 →
      a.start + a.step * a.step_size < a.stop → (a.output n).length = n
  | 0, _, _, _ => rfl
  | n + 1, a, h0, h1 => by
    simp only [Arange.output, Arange.next]
    rw [if_pos h1]
    simp only [List.length_cons]
    rw [arange_output_length_of_zero_step n { a with step := a.step + 1 } h0 (by
      show a.start + (a.step + 1) * a.step_size < a.stop
      rw [h0, mul_zero]
      rw [h0, mul_zero] at h1
      exact h1)]

/-- C7. A fixed-step iterator with `step_size = 0` that is not
already past `end` is infinite: for every fuel bound `n` lazy iteration
yields the full `n` values (it never terminates on its own);
`size_hint` signals the unbounded case distinctly, as the sentinel
`(usize::MAX, None)` with upper bound `None` (the IEEE quotient by zero
is `±∞`/`NaN`, whose `to_usize` fails), not as a finite estimate; and
the eager `count` panics (`none`). -/
theorem arange_zero_step_infinite (a : Arange) (h0 : a.step_size = 0)
    (h1 : a.start + a.step * a.step_size < a.stop) :
    (∀ n : ℕ, (a.output n).length = n) ∧
      a.sizeHint = (USIZE_MAX, none) ∧ a.count = none := by
  refine ⟨fun n => arange_output_length_of_zero_step n a h0 h1, ?_, ?_⟩
  · simp [Arange.sizeHint, floatCeilDivToUsize, h0]
  · simp [Arange.count, Arange.sizeHint, floatCeilDivToUsize, h0]

/-- Witness for C7: `Arange::new(0.0..1.0, 0.0)`. -/
theorem arange_zero_step_infinite_witness :
    ((Arange.new 0 1 0).step_size = 0 ∧
        (Arange.new 0 1 0).start +
            (Arange.new 0 1 0).step * (Arange.new 0 1 0).step_size <
          (Arange.new 0 1 0).stop) ∧
      ((∀ n : ℕ, ((Arange.new 0 1 0).output n).length = n) ∧
        (Arange.new 0 1 0).sizeHint = (USIZE_MAX, none) ∧
        (Arange.new 0 1 0).count = none) :=
  ⟨⟨rfl, by norm_num [Arange.new]⟩,
    arange_zero_step_infinite (Arange.new 0 1 0) rfl (by norm_num [Arange.new])⟩

theorem floatCeilDivToUsize_of_neg (x y : ℚ) (hy : ¬ y = 0) (hc : ⌈x / y⌉ < 0) :
    floatCeilDivToUsize x y = none := by
  unfold floatCeilDivToUsize
  rw [if_neg hy]
  simp only [if_pos hc]

theorem arange_sizeHint_of_none (a : Arange)
    (h : floatCeilDivToUsize (a.stop - (a.start + a.step * a.step_size)) a.step_size = none) :
    a.sizeHint = (USIZE_MAX, none) := by
  simp only [Arange.sizeHint, h]

theorem arange_count_of_none (a : Arange) (h : a.sizeHint = (USIZE_MAX, none)) :
    a.count = none := by
  simp only [Arange.count, h]

/-- C9. The empty fixed-step iterator `Arange::new(2.0..0.0, 0.5)`
(start above end, positive step): `next` is immediately `None` and no
values are yielded, yet `size_hint` is the infinite-iterator sentinel
`(usize::MAX, None)` — the ceiling of the negative quotient fails the
`to_usize` conversion — and `count` panics (`none`). -/
theorem arange_empty_infinite_sentinel :
    (Arange.new 2 0 (1/2)).next = none ∧
      (Arange.new 2 0 (1/2)).output 5 = [] ∧
      (Arange.new 2 0 (1/2)).sizeHint = (USIZE_MAX, none) ∧
      (Arange.new 2 0 (1/2)).count = none := by
  have hlt : ¬ (2 : ℚ) + 0 * (1 / 2) < 0 := by norm_num
  have hlt2 : ¬ (2 : ℚ) < 0 := by norm_num
  have hceil : ⌈((0 : ℚ) - (2 + 0 * (1 / 2))) / (1 / 2)⌉ < 0 := by
    have h4 : ((0 : ℚ) - (2 + 0 * (1 / 2))) / (1 / 2) = ((-4 : ℤ) : ℚ) := by norm_num
    rw [h4, Int.ceil_intCast]
    norm_num
  have hnone : floatCeilDivToUsize ((0 : ℚ) - (2 + 0 * (1 / 2))) (1 / 2) = none :=
    floatCeilDivToUsize_of_neg _ _ (by norm_num) hceil
  have hsize : (Arange.new 2 0 (1/2)).sizeHint = (USIZE_MAX, none) :=
    arange_sizeHint_of_none _ hnone
  refine ⟨?_, ?_, hsize, arange_count_of_none _ hsize⟩
  · simp [Arange.next, Arange.new, hlt, hlt2]
  · simp [Arange.output, Arange.next, Arange.new, hlt, hlt2]

theorem LogSpace.forwardList_eq {α : Type} [Monoid α] (s : LogSpace α) :
    s.forwardList = (List.range' s.x (s.steps - s.x)).map s.lerp.lerp := by
  unfold LogSpace.forwardList
  by_cases h : s.x < s.steps
  · rw [dif_pos h]
    have ih := LogSpace.forwardList_eq { s with x := s.x + 1 }
    rw [ih]
    have hn : s.steps - s.x = (s.steps - (s.x + 1)) + 1 := by omega
    rw [hn, List.range'_succ]
    simp
  · rw [dif_neg h]
    have hn : s.steps - s.x = 0 := by omega
    rw [hn]
    simp
termination_by s.steps - s.x
decreasing_by
  simp
  omega

theorem LogSpace.backwardList_eq {α : Type} [Monoid α] (s : LogSpace α) :
    s.backwardList = ((List.range' s.x (s.steps - s.x)).reverse).map s.lerp.lerp := by
  unfold LogSpace.backwardList
  by_cases h : s.x < s.steps
  · rw [dif_pos h]
    have ih := LogSpace.backwardList_eq { s with steps := s.steps - 1 }
    rw [ih]
    have hn : s.steps - s.x = (s.steps - 1 - s.x) + 1 := by omega
    rw [hn, List.range'_1_concat]
    simp
    congr 1
    omega
  · rw [dif_neg h]
    have hn : s.steps - s.x = 0 := by omega
    rw [hn]
    simp
termination_by s.steps - s.x
decreasing_by
  simp
  omega

theorem LogSpace.forwardList_next {α : Type} [Monoid α] (s : LogSpace α) :
    s.forwardList = (match s.next with
      | none => []
      | some (v, s') => v :: s'.forwardList) := by
  by_cases h : s.x < s.steps
  · unfold LogSpace.next
    rw [if_pos h]
    show s.forwardList = s.lerp.lerp s.x :: LogSpace.forwardList { s with x := s.x + 1 }
    rw [LogSpace.forwardList_eq, LogSpace.forwardList_eq]
    have hn : s.steps - s.x = (s.steps - (s.x + 1)) + 1 := by omega
    rw [hn, List.range'_succ]
    simp
  · unfold LogSpace.next
    rw [if_neg h]
    show s.forwardList = []
    rw [LogSpace.forwardList_eq]
    have hn : s.steps - s.x = 0 := by omega
    rw [hn]
    simp

theorem LogSpace.forwardList_of_next {α : Type} [Monoid α] (s s' : LogSpace α) (v : α)
    (h : s.next = some (v, s')) : s.forwardList = v :: s'.forwardList := by
  by_cases hx : s.x < s.steps
  · unfold LogSpace.next at h
    rw [if_pos hx] at h
    simp only [Option.some.injEq, Prod.mk.injEq] at h
    obtain ⟨rfl, rfl⟩ := h
    rw [LogSpace.forwardList_eq, LogSpace.forwardList_eq]
    have hn : s.steps - s.x = (s.steps - (s.x + 1)) + 1 := by omega
    rw [hn, List.range'_succ]
    simp
  · unfold LogSpace.next at h
    rw [if_neg hx] at h
    simp at h

theorem LogSpace.forwardList_of_nextBack {α : Type} [Monoid α] (s s' : LogSpace α) (v : α)
    (h : s.nextBack = some (v, s')) : s.forwardList = s'.forwardList ++ [v] := by
  by_cases hx : s.x < s.steps
  · unfold LogSpace.nextBack at h
    rw [if_pos hx] at h
    simp only [Option.some.injEq, Prod.mk.injEq] at h
    obtain ⟨rfl, rfl⟩ := h
    rw [LogSpace.forwardList_eq, LogSpace.forwardList_eq]
    have hn : s.steps - s.x = (s.steps - 1 - s.x) + 1 := by omega
    rw [hn, List.range'_1_concat]
    simp
    congr 1
    omega
  · unfold LogSpace.nextBack at h
    rw [if_neg hx] at h
    simp at h

/-- C3. For every `LogSpace` state — hence after any sequence of
forward and backward steps — the reported exact length `len` equals
`steps - cursor`, and equals the number of values still obtainable
going forward: the length of `forwardList`, which (third conjunct)
collects precisely the successful `next` calls until `next` returns
`None`. -/
theorem logSpace_len_exact {α : Type} [Monoid α] (s : LogSpace α) :
    s.len = s.steps - s.x ∧
      s.forwardList.length = s.len ∧
      s.forwardList = (match s.next with
        | none => []
        | some (v, s') => v :: s'.forwardList) := by
  refine ⟨rfl, ?_, LogSpace.forwardList_next s⟩
  rw [LogSpace.forwardList_eq]
  simp [LogSpace.len]

/-- C6. Driving a `LogSpace` entirely backward yields exactly the
reverse of the full forward sequence; and after any interleaving `ds`
of forward (`true`) and backward (`false`) steps, the values collected
so far together with what is still obtainable are a permutation of the
full forward traversal — no duplicates, no omissions.  In particular,
driving any interleaving to exhaustion collects a permutation of the
forward traversal. -/
theorem logSpace_backward_is_reverse {α : Type} [Monoid α] (s : LogSpace α) :
    s.backwardList = s.forwardList.reverse ∧
      ∀ ds : List Bool,
        ((s.drive ds).1 ++ (s.drive ds).2.forwardList).Perm s.forwardList := by
  constructor
  · rw [LogSpace.backwardList_eq, LogSpace.forwardList_eq, List.map_reverse]
  · intro ds
    induction ds generalizing s with
    | nil => simp [LogSpace.drive]
    | cons d ds ih =>
      cases hd : (if d then s.next else s.nextBack) with
      | none =>
        have hstep : s.drive (d :: ds) = s.drive ds := by
          simp only [LogSpace.drive]
          rw [hd]
        rw [hstep]
        exact ih s
      | some p =>
        obtain ⟨v, s1⟩ := p
        have hstep : s.drive (d :: ds) = ((s1.drive ds).1.cons v, (s1.drive ds).2) := by
          simp only [LogSpace.drive]
          rw [hd]
        rw [hstep]
        have hperm := ih s1
        have hfwd : s.forwardList = v :: s1.forwardList ∨
            s.forwardList = s1.forwardList ++ [v] := by
          cases d with
          | true => exact Or.inl (LogSpace.forwardList_of_next s s1 v (by simpa using hd))
          | false => exact Or.inr (LogSpace.forwardList_of_nextBack s s1 v (by simpa using hd))
        rcases hfwd with hfwd | hfwd
        · rw [hfwd]
          simp only [List.cons, List.cons_append]
          exact hperm.cons v
        · rw [hfwd]
          simp only [List.cons, List.cons_append]
          exact (hperm.cons v).trans (List.perm_append_singleton v s1.forwardList).symm

/-- C8. The `LogSpace` cursor invariant: `cursor ≤ steps` (the
lower bound `0 ≤ cursor` is automatic for `ℕ`/`usize`) holds for
freshly constructed iterators (both range flavors), is preserved by
every successful `next` and `next_back`, and — under the invariant —
the iterator is exhausted (both `next` and `next_back` return `None`)
exactly when `cursor = steps`; in particular the forward cursor and
the backward boundary never cross. -/
theorem logSpace_cursor_invariant (start stop : ℝ) (steps : ℕ) (s : LogSpace ℝ)
    (h : s.x ≤ s.steps) :
    (intoLogSpaceRange start stop steps).x ≤ (intoLogSpaceRange start stop steps).steps ∧
      (∀ it : LogSpace ℝ, intoLogSpaceRangeInclusive start stop steps = some it →
        it.x ≤ it.steps) ∧
      (∀ (v : ℝ) (s' : LogSpace ℝ), s.next = some (v, s') → s'.x ≤ s'.steps) ∧
      (∀ (v : ℝ) (s' : LogSpace ℝ), s.nextBack = some (v, s') → s'.x ≤ s'.steps) ∧
      ((s.next = none ∧ s.nextBack = none) ↔ s.x = s.steps) := by
  refine ⟨Nat.zero_le _, ?_, ?_, ?_, ?_⟩
  · intro it hit
    unfold intoLogSpaceRangeInclusive LogInterpolation.fromRangeInclusive at hit
    by_cases h0 : steps = 0
    · rw [if_pos h0] at hit
      simp at hit
    · rw [if_neg h0] at hit
      simp at hit
      rw [← hit]
      exact Nat.zero_le _
  · intro v s' hn
    unfold LogSpace.next at hn
    by_cases hx : s.x < s.steps
    · rw [if_pos hx] at hn
      simp only [Option.some.injEq, Prod.mk.injEq] at hn
      obtain ⟨-, rfl⟩ := hn
      simp
      omega
    · rw [if_neg hx] at hn
      simp at hn
  · intro v s' hn
    unfold LogSpace.nextBack at hn
    by_cases hx : s.x < s.steps
    · rw [if_pos hx] at hn
      simp only [Option.some.injEq, Prod.mk.injEq] at hn
      obtain ⟨-, rfl⟩ := hn
      simp
      omega
    · rw [if_neg hx] at hn
      simp at hn
  · constructor
    · rintro ⟨hn, -⟩
      unfold LogSpace.next at hn
      by_cases hx : s.x < s.steps
      · rw [if_pos hx] at hn
        simp at hn
      · omega
    · intro he
      unfold LogSpace.next LogSpace.nextBack
      rw [if_neg (by omega), if_neg (by omega)]
      exact ⟨rfl, rfl⟩

/-- Witness for C8 at the fresh iterator on `1.0..=10.0` with 3 steps
and the mid-traversal state with cursor `1` of `2` remaining steps. -/
theorem logSpace_cursor_invariant_witness :
    ({ x := 1, steps := 2, lerp := { start := 1, step := 2 } } : LogSpace ℝ).x ≤
        ({ x := 1, steps := 2, lerp := { start := 1, step := 2 } } : LogSpace ℝ).steps ∧
      ((intoLogSpaceRange 1 10 3).x ≤ (intoLogSpaceRange 1 10 3).steps ∧
        (∀ it : LogSpace ℝ, intoLogSpaceRangeInclusive 1 10 3 = some it →
          it.x ≤ it.steps) ∧
        (∀ (v : ℝ) (s' : LogSpace ℝ),
          ({ x := 1, steps := 2, lerp := { start := 1, step := 2 } } : LogSpace ℝ).next =
            some (v, s') → s'.x ≤ s'.steps) ∧
        (∀ (v : ℝ) (s' : LogSpace ℝ),
          ({ x := 1, steps := 2, lerp := { start := 1, step := 2 } } : LogSpace ℝ).nextBack =
            some (v, s') → s'.x ≤ s'.steps) ∧
        ((({ x := 1, steps := 2, lerp := { start := 1, step := 2 } } : LogSpace ℝ).next = none ∧
          ({ x := 1, steps := 2, lerp := { start := 1, step := 2 } } : LogSpace ℝ).nextBack =
            none) ↔
          ({ x := 1, steps := 2, lerp := { start := 1, step := 2 } } : LogSpace ℝ).x =
            ({ x := 1, steps := 2, lerp := { start := 1, step := 2 } } : LogSpace ℝ).steps)) :=
  ⟨by decide,
    logSpace_cursor_invariant 1 10 3
      { x := 1, steps := 2, lerp := { start := 1, step := 2 } } (by decide)⟩

/-- C2. The logarithmic interpolation: from the half-open range
`start..stop` with step count `n` the ratio is
`r = (stop/start) ^ (1/n)` — and indeed `r ^ n = stop/start`, so `n`
multiplications by `r` starting at `start` reach `stop` (endpoints
positive, `n ≠ 0`); from the closed range `start..=stop` with count `n`
the ratio is `(stop/start) ^ (1/(n-1))`, with `r ^ (n-1) = stop/start`
for `n ≥ 2`; and evaluation at every index `i` is `start * r ^ i`
through the power function. -/
theorem logInterpolation_ratio (start stop : ℝ) (n : ℕ)
    (hstart : 0 < start) (hstop : 0 < stop) (hn : n ≠ 0) :
    (LogInterpolation.fromRange start stop n).step = (stop / start) ^ ((n : ℝ))⁻¹ ∧
      (LogInterpolation.fromRange start stop n).step ^ n = stop / start ∧
      (∀ i : ℕ, (LogInterpolation.fromRange start stop n).lerp i =
        start * (LogInterpolation.fromRange start stop n).step ^ i) ∧
      LogInterpolation.fromRangeInclusive start stop n =
        some { start := start, step := (stop / start) ^ (((n - 1 : ℕ) : ℝ))⁻¹ } ∧
      (∀ l : LogInterpolation ℝ, 2 ≤ n →
        LogInterpolation.fromRangeInclusive start stop n = some l →
        l.step ^ (n - 1) = stop / start) := by
  have hx : (0 : ℝ) ≤ stop / start := div_nonneg hstop.le hstart.le
  have key : ∀ m : ℕ, m ≠ 0 → (((stop / start) ^ ((m : ℝ))⁻¹ : ℝ)) ^ m = stop / start := by
    intro m hm
    have hm' : ((m : ℝ)) ≠ 0 := Nat.cast_ne_zero.mpr hm
    rw [← Real.rpow_natCast ((stop / start) ^ ((m : ℝ))⁻¹) m, ← Real.rpow_mul hx,
      inv_mul_cancel₀ hm', Real.rpow_one]
  refine ⟨rfl, key n hn, fun i => rfl, ?_, ?_⟩
  · unfold LogInterpolation.fromRangeInclusive
    rw [if_neg hn]
  · intro l h2 hl
    unfold LogInterpolation.fromRangeInclusive at hl
    rw [if_neg hn] at hl
    simp only [Option.some.injEq] at hl
    rw [← hl]
    exact key (n - 1) (by omega)

/-- Witness for C2 on `1.0..2.0` (and `1.0..=2.0`) with 2 steps. -/
theorem logInterpolation_ratio_witness :
    ((0 : ℝ) < 1 ∧ (0 : ℝ) < 2 ∧ (2 : ℕ) ≠ 0) ∧
      ((LogInterpolation.fromRange 1 2 2).step = ((2 : ℝ) / 1) ^ (((2 : ℕ) : ℝ))⁻¹ ∧
        (LogInterpolation.fromRange 1 2 2).step ^ 2 = (2 : ℝ) / 1 ∧
        (∀ i : ℕ, (LogInterpolation.fromRange 1 2 2).lerp i =
          1 * (LogInterpolation.fromRange 1 2 2).step ^ i) ∧
        LogInterpolation.fromRangeInclusive 1 2 2 =
          some { start := 1, step := ((2 : ℝ) / 1) ^ (((2 - 1 : ℕ) : ℝ))⁻¹ } ∧
        (∀ l : LogInterpolation ℝ, 2 ≤ 2 →
          LogInterpolation.fromRangeInclusive 1 2 2 = some l →
          l.step ^ (2 - 1) = (2 : ℝ) / 1)) :=
  ⟨⟨by norm_num, by norm_num, by decide⟩,
    logInterpolation_ratio 1 2 2 (by norm_num) (by norm_num) (by decide)⟩

/-- C10. Constructing a logarithmic space from a closed range with
`steps = 0` evaluates `steps - 1` on `usize`, which underflows — a
fatal arithmetic error at construction, `none` in the model — while the
half-open construction with `steps = 0` succeeds and produces an empty
iterator: its first `next` is already `None` and its forward traversal
is empty. -/
theorem logSpace_zero_steps_construction (start stop : ℝ) :
    LogInterpolation.fromRangeInclusive start stop 0 = none ∧
      intoLogSpaceRangeInclusive start stop 0 = none ∧
      (intoLogSpaceRange start stop 0).next = none ∧
      (intoLogSpaceRange start stop 0).forwardList = [] := by
  refine ⟨rfl, rfl, ?_, ?_⟩
  · unfold LogSpace.next
    rw [if_neg (by simp [intoLogSpaceRange])]
  · rw [LogSpace.forwardList_eq]
    simp [intoLogSpaceRange]
